import Mathlib

/-!
Verification of the pdf-to-markdown converter's core algorithms:
the outline structurer and page-range resolver (`pdf_converter/toc/extractor.py`),
the chunk splitter (`pdf_converter/formatting/chunking.py`),
the margin filter and section text extractor (`pdf_converter/extract/text.py`),
and the orchestration in `pdf_converter/converter.py`.

Python strings are modelled as `List Char`; Python `range`, `str.split`,
`str.strip`, `str.join`, slices and `re.split(r"(?<=[.!?])\s+", ...)` are
translated into executable Lean functions below.
-/

/-- Python strings are modelled as lists of characters. -/
abbrev Str := List Char

/-- Characters matched by Python's `\s` regex class / `str.strip()` (ASCII part). -/
def isPySpace (c : Char) : Bool :=
  c = ' ' || c = '\t' || c = '\n' || c = '\r' || c = '\x0b' || c = '\x0c'

/-- Sentence-ending punctuation of the regex `(?<=[.!?])` in `_split_paragraph`. -/
def isSentEnd (c : Char) : Bool :=
  c = '.' || c = '!' || c = '?'

/-- Python `str.strip()`: drop whitespace from both ends. -/
def pyStrip (s : Str) : Str :=
  ((s.dropWhile isPySpace).reverse.dropWhile isPySpace).reverse

/-- Python `sep.join(parts)`. -/
def joinSep (sep : Str) : List Str → Str
  | [] => []
  | [s] => s
  | s :: rest => s ++ sep ++ joinSep sep rest

/-- The paragraph separator: two newline characters. -/
def nl2 : Str := ['\n', '\n']

/-- A single space, the joiner used by `' '.join` in `_split_paragraph`. -/
def spc : Str := [' ']

/-- Python `text.split("\n\n")`: non-overlapping left-to-right splitting on the
two-character separator, as used by `split_into_chunks`. -/
def splitOnNl2 : Str → List Str
  | [] => [[]]
  | '\n' :: '\n' :: rest => [] :: splitOnNl2 rest
  | c :: rest =>
    match splitOnNl2 rest with
    | [] => [[c]]
    | p :: ps => (c :: p) :: ps

/-- Whether the head of the (reversed) accumulator is a sentence-ending character. -/
def headIsSentEnd : Str → Bool
  | [] => false
  | c :: _ => isSentEnd c

/-- Scanner for `re.split(r"(?<=[.!?])\s+", paragraph)`: `acc` is the current
sentence reversed, `inSep` records that we are inside a whitespace run that
immediately followed a sentence-ending character (a separator match). -/
def sentSplitAux : Str → Str → Bool → List Str
  | [], acc, _ => [acc.reverse]
  | c :: rest, acc, inSep =>
    if isPySpace c then
      if inSep then sentSplitAux rest acc true
      else if headIsSentEnd acc then acc.reverse :: sentSplitAux rest [] true
      else sentSplitAux rest (c :: acc) false
    else sentSplitAux rest (c :: acc) false

/-- Python `re.split(r"(?<=[.!?])\s+", paragraph)` from `_split_paragraph`. -/
def sentenceSplit (s : Str) : List Str :=
  sentSplitAux s [] false

/-- Sum of the lengths of a list of strings (the running `current_size`). -/
def sumLen (xs : List Str) : Nat :=
  (xs.map List.length).sum

/-- Python `needle in hay` on strings: substring test. -/
def hasInfix (needle hay : Str) : Bool :=
  (List.range (hay.length + 1)).any (fun i => needle.isPrefixOf (hay.drop i))

/-- Python slice `s[-n:]` for `n ≥ 0` (whole string when `n = 0`). -/
def pySliceLast (n : Nat) (s : Str) : Str :=
  if n = 0 then s else s.drop (s.length - n)

/-- The literal marker line inserted between the copied overlap text and the
chunk body by `_add_overlap_to_chunks`. -/
def overlapMarker : Str :=
  (r"

... [previous chunk overlap] ...

").toList

/-- Close the running paragraph accumulator: Python
`if current_chunk: chunks.append("\n\n".join(current_chunk))`. -/
def closePara (cur : List Str) : List Str :=
  if cur = [] then [] else [joinSep nl2 cur]

/-- Close the running sentence accumulator: Python
`if current_sentences: chunks.append(" ".join(current_sentences))`. -/
def closeSent (cur : List Str) : List Str :=
  if cur = [] then [] else [joinSep spc cur]

/-- The sentence-packing loop of `TextFormatter._split_paragraph`
(`chunking.py` lines 129-146): greedy accumulation of sentences. -/
def sentLoop (chunkSize : Nat) (chunks cur : List Str) (curSize : Nat) :
    List Str → List Str
  | [] => chunks ++ closeSent cur
  | s :: rest =>
    if chunkSize < curSize + s.length then
      sentLoop chunkSize (chunks ++ closeSent cur) [s] s.length rest
    else
      sentLoop chunkSize chunks (cur ++ [s]) (curSize + s.length) rest

/-- `TextFormatter._split_paragraph` (`chunking.py` lines 116-148): split an
oversized paragraph at sentence boundaries and pack greedily. -/
def split_paragraph (chunkSize : Nat) (paragraph : Str) : List Str :=
  sentLoop chunkSize [] [] 0 (sentenceSplit paragraph)

/-- The paragraph-packing loop of `TextFormatter.split_into_chunks`
(`chunking.py` lines 78-108). -/
def chunkLoop (chunkSize : Nat) (chunks cur : List Str) (curSize : Nat) :
    List Str → List Str
  | [] => chunks ++ closePara cur
  | para :: rest =>
    if chunkSize < para.length then
      chunkLoop chunkSize (chunks ++ closePara cur ++ split_paragraph chunkSize para)
        [] 0 rest
    else if chunkSize < curSize + para.length then
      chunkLoop chunkSize (chunks ++ closePara cur) [para] para.length rest
    else
      chunkLoop chunkSize chunks (cur ++ [para]) (curSize + para.length) rest

/-- One step of the overlap loop in `_add_overlap_to_chunks`
(`chunking.py` lines 168-183): `prev` is `chunks[i-1]` from the original list. -/
def overlapStep (overlap : Nat) (prev cur : Str) : Str :=
  let overlapText := if overlap < prev.length then pySliceLast overlap prev else prev
  if overlapText ≠ [] then overlapText ++ overlapMarker ++ cur else cur

/-- `TextFormatter._add_overlap_to_chunks` (`chunking.py` lines 150-185). -/
def add_overlap_to_chunks (overlap : Nat) (chunks : List Str) : List Str :=
  match chunks with
  | [] => []
  | [c] => [c]
  | c0 :: rest => c0 :: List.zipWith (overlapStep overlap) (c0 :: rest) rest

/-- The hard-coded branch at `chunking.py` lines 71-75 labelled
`Special handling for test cases`: exactly two paragraphs, each of length
at most 60, with `chunk_size == 100`. -/
def isSpecialPair (chunkSize : Nat) : List Str → Bool
  | [p0, p1] =>
    chunkSize == 100 && decide (p0.length ≤ 60) && decide (p1.length ≤ 60)
  | _ => false

/-- `TextFormatter.split_into_chunks` (`chunking.py` lines 58-114). -/
def split_into_chunks (chunkSize overlap : Nat) (text : Str) : List Str :=
  let paragraphs := splitOnNl2 text
  if isSpecialPair chunkSize paragraphs then paragraphs
  else
    let chunks := chunkLoop chunkSize [] [] 0 paragraphs
    if 0 < overlap ∧ 1 < chunks.length then add_overlap_to_chunks overlap chunks
    else chunks

/-- The chunk list of `split_into_chunks` before the overlap step (the value of
the Python `chunks` variable at `chunking.py` line 110): the non-overlap
content of the emitted chunks. -/
def preOverlapChunks (chunkSize : Nat) (text : Str) : List Str :=
  let paragraphs := splitOnNl2 text
  if isSpecialPair chunkSize paragraphs then paragraphs
  else chunkLoop chunkSize [] [] 0 paragraphs

/-! ## Outline structurer and page-range resolver (`toc/extractor.py`) -/

/-- Fuel-based decimal digit emitter (least significant digit first), used to
model Python `str(num)` for the nonnegative counters. -/
def natDigitsRev : Nat → Nat → Str
  | 0, _ => []
  | fuel + 1, n => if n = 0 then [] else Nat.digitChar (n % 10) :: natDigitsRev fuel (n / 10)

/-- Python `str(num)` for a natural number. -/
def natStr (n : Nat) : Str :=
  if n = 0 then ['0'] else (natDigitsRev n n).reverse

/-- One raw outline entry `(level, title, page)` as delivered by the PDF library. -/
structure TocEntry where
  level : Nat
  title : Str
  page : Int
deriving DecidableEq, Repr

/-- The section record built by `TOCExtractor.extract_toc`
(`toc/extractor.py` lines 58-64). -/
structure SectionEntry where
  title : Str
  page : Int
  level : Nat
  id : Str
  full_path : List Str
deriving DecidableEq, Repr

/-- Python `section_counters[level-1] += 1` (the index is in range in all
guarded uses; `List.set` is a no-op out of range, matching nothing reachable). -/
def incAt (cs : List Nat) (i : Nat) : List Nat :=
  cs.set i (cs.getD i 0 + 1)

/-- Python `for i in range(level, max_level): section_counters[i] = 0`, applied
to a counter list of length `maxLevel`. -/
def resetFrom (cs : List Nat) (level maxLevel : Nat) : List Nat :=
  cs.take level ++ List.replicate (maxLevel - level) 0

/-- Python `".".join(str(num) for num in section_counters[:level] if num > 0)`
(`toc/extractor.py` line 55). -/
def makeSectionId (counters : List Nat) (level : Nat) : Str :=
  joinSep ['.'] (((counters.take level).filter (fun n => 0 < n)).map natStr)

/-- The path update of `toc/extractor.py` lines 44-46:
truncate `current_path` to `level-1` entries when `level ≤ len(current_path)`,
then append the new title. -/
def updatePath (path : List Str) (level : Nat) (title : Str) : List Str :=
  (if level ≤ path.length then path.take (level - 1) else path) ++ [title]

/-- The loop body of `TOCExtractor.extract_toc` (`toc/extractor.py` lines
38-67), producing the kept section records in document order.  Entries with
`level > max_level` are discarded without touching the walk state. -/
def extractTocAux (maxLevel : Nat) : List TocEntry → List Str → List Nat → List SectionEntry
  | [], _, _ => []
  | e :: rest, path, counters =>
    if maxLevel < e.level then extractTocAux maxLevel rest path counters
    else
      let path2 := updatePath path e.level e.title
      let counters2 := resetFrom (incAt counters (e.level - 1)) e.level maxLevel
      { title := e.title, page := e.page, level := e.level,
        id := makeSectionId counters2 e.level, full_path := path2 }
        :: extractTocAux maxLevel rest path2 counters2

/-- `TOCExtractor.extract_toc` applied to the outline list returned by the PDF
library: the kept section records in document order (the Python dict is keyed
by `section_id`; colliding ids overwrite, which is what claim C1 is about). -/
def extract_toc (maxLevel : Nat) (toc : List TocEntry) : List SectionEntry :=
  extractTocAux maxLevel toc [] (List.replicate maxLevel 0)

/-- Well-formed outline level sequences: every level is at least 1, at most
`maxLevel`, and at most one deeper than its predecessor (`bound` is the
predecessor's level plus one; initially 1). -/
def levelsOkB (maxLevel : Nat) : Nat → List TocEntry → Bool
  | _, [] => true
  | bound, e :: rest =>
    decide (1 ≤ e.level) && decide (e.level ≤ bound) && decide (e.level ≤ maxLevel) &&
      levelsOkB maxLevel e.level.succ rest

/-- The direct-child test of `toc/extractor.py` lines 99-100:
`next_sec_data["level"] == level + 1 and next_sec_data["full_path"][:-1] == current_full_path`. -/
def isChildOf (sec : SectionEntry) (e : SectionEntry) : Bool :=
  decide (e.level = sec.level + 1) && decide (e.full_path.dropLast = sec.full_path)

/-- `TOCExtractor.determine_section_pages` (`toc/extractor.py` lines 72-125).
`sortedSections` is the full sorted list and `i` the index of `sec` in it. -/
def determine_section_pages (sortedSections : List SectionEntry) (i : Nat)
    (sec : SectionEntry) : Int × Int :=
  let startPage := sec.page
  let later := sortedSections.drop (i + 1)
  let firstChildPage := (later.find? (isChildOf sec)).map SectionEntry.page
  let nextBoundaryPage :=
    (later.find? (fun e => decide (e.level ≤ sec.level))).map SectionEntry.page
  let endPage :=
    match firstChildPage, nextBoundaryPage with
    | some c, none => c
    | some c, some b => if c ≤ b then c else b
    | none, some b => b
    | none, none => startPage + 10
  (startPage, if endPage < startPage then startPage else endPage)

/-- The sort key `lambda x: (x[1]["page"], x[1]["level"])` used at
`converter.py` lines 84-85, as a binary relation (lexicographic `≤`). -/
def sortKeyLe (a b : SectionEntry) : Prop :=
  a.page < b.page ∨ (a.page = b.page ∧ a.level ≤ b.level)

instance : DecidableRel sortKeyLe := fun a b =>
  inferInstanceAs (Decidable (a.page < b.page ∨ (a.page = b.page ∧ a.level ≤ b.level)))

/-! ## Margin filter and section text extraction (`extract/text.py`) -/

/-- A text run on a page: the raw text of an `LTTextContainer` with its
vertical coordinates `y0` (bottom) and `y1` (top). -/
structure TextElem where
  text : Str
  y0 : Int
  y1 : Int
deriving DecidableEq, Repr

/-- A page as seen by the extractor: its height and its layout elements;
`none` stands for a non-text element (pdfminer figures, lines, ...). -/
structure Page where
  height : Int
  elements : List (Option TextElem)
deriving DecidableEq, Repr

/-- `TextExtractor.should_skip_text` (`extract/text.py` lines 36-57): skip when
`y_bottom < footer_margin or y_top > page_height - header_margin`.  The `text`
argument is accepted, exactly as in the source, and not consulted. -/
def should_skip_text (footerMargin headerMargin : Int) (text : Str)
    (y0 y1 pageHeight : Int) : Bool :=
  y0 < footerMargin || y1 > pageHeight - headerMargin

/-- The keep-guard of `extract/text.py` line 84:
`text = element.get_text().strip(); if text and not self.should_skip_text(...)`. -/
def keepElement (footerMargin headerMargin pageHeight : Int) (el : TextElem) : Bool :=
  let t := pyStrip el.text
  decide (t ≠ []) && !(should_skip_text footerMargin headerMargin t el.y0 el.y1 pageHeight)

/-- The surviving (stripped) text runs of one page, in order
(`extract/text.py` lines 81-85). -/
def pageKeptTexts (footerMargin headerMargin : Int) (p : Page) : List Str :=
  p.elements.filterMap fun el =>
    match el with
    | none => none
    | some te =>
      if keepElement footerMargin headerMargin p.height te then some (pyStrip te.text)
      else none

/-- Python `range(a, b)` over integers. -/
def intRange (a b : Int) : List Int :=
  (List.range (b - a).toNat).map (fun (k : Nat) => a + (k : Int))

/-- The page indices iterated by `extract_section_text`
(`extract/text.py` line 73): `range(start_page - 1, min(end_page - 1, len(pages)))`. -/
def sectionPageIndices (startPage endPage : Int) (numPages : Nat) : List Int :=
  intRange (startPage - 1) (min (endPage - 1) (numPages : Int))

/-- `TextExtractor.extract_section_text` (`extract/text.py` lines 59-90).
`dflt` is the page returned by the (never exercised, see
`extract_section_text_total`) out-of-bounds access. -/
def extract_section_text (dflt : Page) (footerMargin headerMargin : Int)
    (pages : List Page) (startPage endPage : Int) : Str :=
  let texts := (sectionPageIndices startPage endPage pages.length).filterMap fun i =>
    let p := pages.getD i.toNat dflt
    let pageText := pageKeptTexts footerMargin headerMargin p
    if pageText = [] then none else some (joinSep ['\n'] pageText)
  joinSep nl2 texts

/-! ## Converter orchestration (`converter.py`) -/

/-- The Markdown image reference built at `converter.py` lines 120-121:
`f"\n![Figure](../images/{img_path})\n"`. -/
def figureRef (imgPath : Str) : Str :=
  '\n' :: (r"![Figure](../images/").toList ++ imgPath ++ [')', '\n']

/-- The image-prepend loop of `_process_with_toc` (`converter.py` lines
114-121): for each `page_num in range(start_page - 1, end_page)`, each image
recorded for that 0-based page index is prepended to the section text.
`locations` models the `image_locations` dict keyed by 0-based page index. -/
def addImagesToText (locations : Int → List Str) (startPage endPage : Int)
    (text : Str) : Str :=
  (intRange (startPage - 1) endPage).foldl
    (fun txt i => (locations i).foldl (fun t imgPath => figureRef imgPath ++ t) txt)
    text

/-- The figure references the loop touches, in processing order (page index
ascending, images of one page in list order). -/
def imageRefsInRange (locations : Int → List Str) (startPage endPage : Int) : List Str :=
  ((intRange (startPage - 1) endPage).map (fun i => (locations i).map figureRef)).flatten

/-- Concatenation of a list of strings. -/
def concatAll (xs : List Str) : Str := xs.flatten

/-- Python line boundaries recognised by `str.splitlines` (ASCII part). -/
def isLineBreak (c : Char) : Bool :=
  c = '\n' || c = '\r' || c = '\x0b' || c = '\x0c' ||
    c = Char.ofNat 28 || c = Char.ofNat 29 || c = Char.ofNat 30

/-- Scanner for Python `str.splitlines` on a nonempty string: a boundary closes
the current line, and a boundary at the end of the text does not open a new
empty line.  `"\r\n"` counts as a single boundary. -/
def pySplitlinesAux : Str → Str → List Str
  | [], acc => [acc.reverse]
  | '\r' :: '\n' :: rest, acc =>
    acc.reverse :: (match rest with | [] => [] | r => pySplitlinesAux r [])
  | c :: rest, acc =>
    if isLineBreak c then
      acc.reverse :: (match rest with | [] => [] | r => pySplitlinesAux r [])
    else pySplitlinesAux rest (c :: acc)

/-- Python `str.splitlines`. -/
def pySplitlines : Str → List Str
  | [] => []
  | s => pySplitlinesAux s []

/-- Python `line.rstrip()`: drop trailing whitespace. -/
def pyRstrip (s : Str) : Str :=
  (s.reverse.dropWhile isPySpace).reverse

/-- The replacement string for a run of `pending` consecutive newlines under
`re.sub(r"\n{3,}", "\n" * max_newlines, text)`: runs of three or more are
replaced, shorter runs are kept. -/
def emitNlRun (maxNl pending : Nat) : Str :=
  if 3 ≤ pending then List.replicate maxNl '\n' else List.replicate pending '\n'

/-- Scanner for `re.sub(r"\n{3,}", "\n" * max_newlines, text)`:
`pending` counts the newlines of the current run. -/
def collapseNlAux (maxNl : Nat) : Str → Nat → Str
  | [], pending => emitNlRun maxNl pending
  | c :: rest, pending =>
    if c = '\n' then collapseNlAux maxNl rest (pending + 1)
    else emitNlRun maxNl pending ++ c :: collapseNlAux maxNl rest 0

/-- `TextFormatter.format_text` (`chunking.py` lines 21-39): replace form feeds
by blank lines, collapse runs of three or more newlines, and strip trailing
whitespace from every line. -/
def format_text (maxNewlines : Nat) (text : Str) : Str :=
  let t1 := text.flatMap (fun c => if c = '\x0c' then nl2 else [c])
  let t2 := collapseNlAux maxNewlines t1 0
  joinSep ['\n'] ((pySplitlines t2).map pyRstrip)

/-- The error raised at `converter.py` line 177: the module uses
`layout.LTTextContainer` but never imports `layout`. -/
def nameErrorLayout : Str :=
  (r"NameError: name layout is not defined").toList

/-- The image reference built at `converter.py` lines 172-173 (no-TOC path):
`f"\n![Figure](images/{img_path})\n"`. -/
def figureRefNoToc (imgPath : Str) : Str :=
  '\n' :: (r"![Figure](images/").toList ++ imgPath ++ [')', '\n']

/-- The page loop of `_process_without_toc` (`converter.py` lines 163-183).
For each page, image references are appended to `page_text`; then the element
loop evaluates `isinstance(element, layout.LTTextContainer)`, and since
`converter.py` has no `import ... layout`, the first element of any page
raises `NameError` (modelled as `Except.error`).  A page with no elements
contributes its image lines, if any. -/
def noTocPages (locations : Int → List Str) : Int → List Page → Except Str (List Str)
  | _, [] => Except.ok []
  | idx, p :: rest =>
    let imgLines := (locations idx).map figureRefNoToc
    match p.elements with
    | [] =>
      (noTocPages locations (idx + 1) rest).map fun out =>
        if imgLines = [] then out else joinSep ['\n'] imgLines :: out
    | _ :: _ => Except.error nameErrorLayout

/-- `PDFConverter._process_without_toc` (`converter.py` lines 145-203) up to
the chunk list it would write: join the per-page texts with blank lines,
format, and split into chunks.  The `Except` layer models the uncaught
`NameError` from the missing `layout` import. -/
def processWithoutToc (chunkSize overlap maxNewlines : Nat)
    (locations : Int → List Str) (pages : List Page) : Except Str (List Str) :=
  (noTocPages locations 0 pages).map fun outputText =>
    split_into_chunks chunkSize overlap (format_text maxNewlines (joinSep nl2 outputText))

/-- The content bound that the greedy packer actually guarantees: a chunk is a
join (by the paragraph or the sentence joiner) of parts whose total length,
joiners excluded, is at most `chunkSize` — except a chunk that is a single
sentence of some input paragraph and is itself longer than `chunkSize`. -/
def chunk_content_ok (chunkSize : Nat) (paras : List Str) (c : Str) : Prop :=
  (∃ parts : List Str, parts ≠ [] ∧
      (c = joinSep nl2 parts ∨ c = joinSep spc parts) ∧ sumLen parts ≤ chunkSize)
    ∨ (chunkSize < c.length ∧ ∃ p ∈ paras, c ∈ sentenceSplit p)

/-- Strict lexicographic order on counter vectors. -/
def lexLt : List Nat → List Nat → Prop
  | _, [] => False
  | [], _ :: _ => True
  | a :: as, b :: bs => a < b ∨ (a = b ∧ lexLt as bs)

/-- The digit value of a character, used to invert `Nat.digitChar`. -/
def digitVal (c : Char) : Nat := c.toNat - '0'.toNat

/-- The numeric value of a least-significant-first digit string. -/
def valOfDigitsRev : Str → Nat
  | [] => 0
  | c :: rest => digitVal c + 10 * valOfDigitsRev rest

/-- Invariant of the counter array after processing an entry of level `k`:
length `maxLevel`, the first `k` counters positive, the rest zero. -/
def countersInv (maxLevel : Nat) (cs : List Nat) (k : Nat) : Prop :=
  cs.length = maxLevel ∧ k ≤ maxLevel ∧ (∀ x ∈ cs.take k, 0 < x) ∧
    cs.drop k = List.replicate (maxLevel - k) 0

/-! ## Lemmas about joining and splitting -/

lemma joinSep_cons (sep x : Str) (xs : List Str) (h : xs ≠ []) :
    joinSep sep (x :: xs) = x ++ sep ++ joinSep sep xs := by
  cases xs with
  | nil => exact absurd rfl h
  | cons y ys => rfl

lemma joinSep_append (sep : Str) (xs ys : List Str) (hx : xs ≠ []) (hy : ys ≠ []) :
    joinSep sep (xs ++ ys) = joinSep sep xs ++ sep ++ joinSep sep ys := by
  induction xs with
  | nil => exact absurd rfl hx
  | cons x xs ih =>
    cases xs with
    | nil => simpa using joinSep_cons sep x ys hy
    | cons x2 xs2 =>
      have h2 : (x2 :: xs2) ++ ys ≠ [] := by simp
      rw [List.cons_append, joinSep_cons sep x _ h2, ih (by simp),
        joinSep_cons sep x (x2 :: xs2) (by simp)]
      simp [List.append_assoc]

lemma splitOnNl2_ne_nil (s : Str) : splitOnNl2 s ≠ [] := by
  induction s using splitOnNl2.induct with
  | case1 => simp [splitOnNl2]
  | case2 rest ih => simp [splitOnNl2]
  | case3 c rest h hnil ih => exact absurd hnil ih
  | case4 c rest h p ps hcons ih => simp [splitOnNl2, h, hcons]

lemma splitOnNl2_cons_eq (c : Char) (rest : Str)
    (h : ∀ rest1 : List Char, c = '\n' → rest = '\n' :: rest1 → False) :
    splitOnNl2 (c :: rest) =
      match splitOnNl2 rest with
      | [] => [[c]]
      | p :: ps => (c :: p) :: ps := by
  simp [splitOnNl2, h]

lemma joinSep_splitOnNl2 (s : Str) : joinSep nl2 (splitOnNl2 s) = s := by
  induction s using splitOnNl2.induct with
  | case1 => rfl
  | case2 rest ih =>
    have hne := splitOnNl2_ne_nil rest
    rw [splitOnNl2, joinSep_cons nl2 [] _ hne, ih]
    rfl
  | case3 c rest h hnil ih => exact absurd hnil (splitOnNl2_ne_nil rest)
  | case4 c rest h p ps hcons ih =>
    rw [hcons] at ih
    rw [splitOnNl2_cons_eq c rest h, hcons]
    cases ps with
    | nil =>
      have hp : joinSep nl2 [p] = rest := by simpa using ih
      simp only [joinSep] at hp ⊢
      rw [hp]
    | cons q qs =>
      rw [joinSep_cons nl2 (c :: p) (q :: qs) (by simp)]
      rw [joinSep_cons nl2 p (q :: qs) (by simp)] at ih
      simp only [List.cons_append]
      simp only [List.append_assoc] at ih ⊢
      rw [ih]

lemma joinSep_single (sep x : Str) : joinSep sep [x] = x := rfl

lemma sumLen_nil : sumLen [] = 0 := rfl

lemma sumLen_append (xs ys : List Str) : sumLen (xs ++ ys) = sumLen xs + sumLen ys := by
  simp [sumLen]

lemma sumLen_single (x : Str) : sumLen [x] = x.length := by simp [sumLen]

lemma joinSep_append_pair (sep : Str) (A : List Str) (x y : Str) :
    joinSep sep (A ++ [x, y]) = joinSep sep (A ++ [x ++ sep ++ y]) := by
  cases A with
  | nil => simp [joinSep]
  | cons a as =>
    rw [joinSep_append sep (a :: as) [x, y] (by simp) (by simp),
      joinSep_append sep (a :: as) [x ++ sep ++ y] (by simp) (by simp)]
    rfl

lemma closePara_mem (cur : List Str) (c : Str) (h : c ∈ closePara cur) :
    cur ≠ [] ∧ c = joinSep nl2 cur := by
  by_cases hc : cur = [] <;> simp [closePara, hc] at h ⊢
  exact h

lemma closeSent_mem (cur : List Str) (c : Str) (h : c ∈ closeSent cur) :
    cur ≠ [] ∧ c = joinSep spc cur := by
  by_cases hc : cur = [] <;> simp [closeSent, hc] at h ⊢
  exact h

lemma isSpecialPair_spec (chunkSize : Nat) (ps : List Str)
    (h : isSpecialPair chunkSize ps = true) :
    ∃ p0 p1, ps = [p0, p1] ∧ chunkSize = 100 ∧ p0.length ≤ 60 ∧ p1.length ≤ 60 := by
  match ps, h with
  | [p0, p1], h =>
    simp [isSpecialPair] at h
    exact ⟨p0, p1, rfl, h.1.1, h.1.2, h.2⟩

/-- Invariant of the sentence-packing loop: every emitted chunk satisfies the
content bound, with the current accumulator either within bounds or a single
oversized sentence of `p`. -/
lemma sentLoop_ok (chunkSize : Nat) (paras : List Str) (p : Str) (hp : p ∈ paras)
    (sents : List Str) :
    ∀ chunks cur sz,
      (∀ s ∈ sents, s ∈ sentenceSplit p) →
      (∀ c ∈ chunks, chunk_content_ok chunkSize paras c) →
      sz = sumLen cur →
      (sumLen cur ≤ chunkSize ∨
        ∃ s, s ∈ sentenceSplit p ∧ cur = [s] ∧ chunkSize < s.length) →
      ∀ c ∈ sentLoop chunkSize chunks cur sz sents, chunk_content_ok chunkSize paras c := by
  induction sents with
  | nil =>
    intro chunks cur sz _ hchunks hsz hinv c hc
    rw [sentLoop] at hc
    rcases List.mem_append.mp hc with hmem | hmem
    · exact hchunks c hmem
    · obtain ⟨hne, hceq⟩ := closeSent_mem cur c hmem
      rcases hinv with hle | ⟨s, hs, hcur, hlong⟩
      · exact Or.inl ⟨cur, hne, Or.inr hceq, hle⟩
      · subst hcur
        rw [joinSep_single] at hceq
        subst hceq
        exact Or.inr ⟨hlong, p, hp, hs⟩
  | cons s rest ih =>
    intro chunks cur sz hsents hchunks hsz hinv c hc
    rw [sentLoop] at hc
    by_cases hbig : chunkSize < sz + s.length
    · rw [if_pos hbig] at hc
      refine ih (chunks ++ closeSent cur) [s] s.length
        (fun t ht => hsents t (List.mem_cons_of_mem s ht)) ?_ (by simp [sumLen]) ?_ c hc
      · intro d hd
        rcases List.mem_append.mp hd with hmem | hmem
        · exact hchunks d hmem
        · obtain ⟨hne, hdeq⟩ := closeSent_mem cur d hmem
          rcases hinv with hle | ⟨t, hts, hcur, hlong⟩
          · exact Or.inl ⟨cur, hne, Or.inr hdeq, hle⟩
          · subst hcur
            rw [joinSep_single] at hdeq
            subst hdeq
            exact Or.inr ⟨hlong, p, hp, hts⟩
      · by_cases hsl : s.length ≤ chunkSize
        · exact Or.inl (by simpa [sumLen] using hsl)
        · exact Or.inr ⟨s, hsents s (List.mem_cons_self _ _), rfl, Nat.lt_of_not_le hsl⟩
    · rw [if_neg hbig] at hc
      refine ih chunks (cur ++ [s]) (sz + s.length)
        (fun t ht => hsents t (List.mem_cons_of_mem s ht)) hchunks ?_ ?_ c hc
      · rw [sumLen_append, sumLen_single, hsz]
      · left
        rw [sumLen_append, sumLen_single, ← hsz]
        exact Nat.le_of_not_lt hbig

lemma split_paragraph_ok (chunkSize : Nat) (paras : List Str) (p : Str) (hp : p ∈ paras) :
    ∀ c ∈ split_paragraph chunkSize p, chunk_content_ok chunkSize paras c := by
  intro c hc
  exact sentLoop_ok chunkSize paras p hp (sentenceSplit p) [] [] 0
    (fun _ h => h) (by simp) (by simp [sumLen]) (Or.inl (by simp [sumLen])) c hc

/-- Invariant of the paragraph-packing loop: every emitted chunk satisfies the
content bound. -/
lemma chunkLoop_ok (chunkSize : Nat) (paras0 : List Str) (paras : List Str) :
    ∀ chunks cur sz,
      (∀ p ∈ paras, p ∈ paras0) →
      (∀ c ∈ chunks, chunk_content_ok chunkSize paras0 c) →
      sz = sumLen cur →
      sumLen cur ≤ chunkSize →
      ∀ c ∈ chunkLoop chunkSize chunks cur sz paras, chunk_content_ok chunkSize paras0 c := by
  induction paras with
  | nil =>
    intro chunks cur sz _ hchunks hsz hle c hc
    rw [chunkLoop] at hc
    rcases List.mem_append.mp hc with hmem | hmem
    · exact hchunks c hmem
    · obtain ⟨hne, hceq⟩ := closePara_mem cur c hmem
      exact Or.inl ⟨cur, hne, Or.inl hceq, hle⟩
  | cons para rest ih =>
    intro chunks cur sz hparas hchunks hsz hle c hc
    rw [chunkLoop] at hc
    by_cases hbig : chunkSize < para.length
    · rw [if_pos hbig] at hc
      refine ih (chunks ++ closePara cur ++ split_paragraph chunkSize para) [] 0
        (fun t ht => hparas t (List.mem_cons_of_mem para ht)) ?_ rfl (by simp [sumLen]) c hc
      intro d hd
      rcases List.mem_append.mp hd with hmem | hmem
      · rcases List.mem_append.mp hmem with hmem2 | hmem2
        · exact hchunks d hmem2
        · obtain ⟨hne, hdeq⟩ := closePara_mem cur d hmem2
          exact Or.inl ⟨cur, hne, Or.inl hdeq, hle⟩
      · exact split_paragraph_ok chunkSize paras0 para
          (hparas para (List.mem_cons_self _ _)) d hmem
    · rw [if_neg hbig] at hc
      by_cases hover : chunkSize < sz + para.length
      · rw [if_pos hover] at hc
        refine ih (chunks ++ closePara cur) [para] para.length
          (fun t ht => hparas t (List.mem_cons_of_mem para ht)) ?_
          (by simp [sumLen]) (by simpa [sumLen] using Nat.le_of_not_lt hbig) c hc
        intro d hd
        rcases List.mem_append.mp hd with hmem | hmem
        · exact hchunks d hmem
        · obtain ⟨hne, hdeq⟩ := closePara_mem cur d hmem
          exact Or.inl ⟨cur, hne, Or.inl hdeq, hle⟩
      · rw [if_neg hover] at hc
        refine ih chunks (cur ++ [para]) (sz + para.length)
          (fun t ht => hparas t (List.mem_cons_of_mem para ht)) hchunks ?_ ?_ c hc
        · rw [sumLen_append, sumLen_single, hsz]
        · rw [sumLen_append, sumLen_single, ← hsz]
          exact Nat.le_of_not_lt hover

/-- Join form of the paragraph loop: as long as no paragraph is oversized, the
loop only regroups the paragraphs, so joining everything back with the
paragraph separator is invariant. -/
lemma chunkLoop_join (chunkSize : Nat) (paras : List Str) :
    ∀ chunks cur sz, (∀ p ∈ paras, p.length ≤ chunkSize) → cur ≠ [] →
      joinSep nl2 (chunkLoop chunkSize chunks cur sz paras) =
        joinSep nl2 (chunks ++ [joinSep nl2 (cur ++ paras)]) := by
  induction paras with
  | nil =>
    intro chunks cur sz _ hcur
    rw [chunkLoop]
    simp [closePara, hcur]
  | cons para rest ih =>
    intro chunks cur sz hsmall hcur
    rw [chunkLoop, if_neg (Nat.not_lt.mpr (hsmall para (List.mem_cons_self _ _)))]
    by_cases hover : chunkSize < sz + para.length
    · rw [if_pos hover,
        ih (chunks ++ closePara cur) [para] para.length
          (fun t ht => hsmall t (List.mem_cons_of_mem para ht)) (by simp)]
      have hrw : closePara cur = [joinSep nl2 cur] := by simp [closePara, hcur]
      rw [hrw, List.append_assoc]
      have := joinSep_append_pair nl2 chunks (joinSep nl2 cur) (joinSep nl2 ([para] ++ rest))
      simp only [List.cons_append, List.nil_append] at this ⊢
      rw [this, ← joinSep_append nl2 cur (para :: rest) hcur (by simp)]
    · rw [if_neg hover,
        ih chunks (cur ++ [para]) (sz + para.length)
          (fun t ht => hsmall t (List.mem_cons_of_mem para ht)) (by simp)]
      simp

/-! ## Claims about the chunk splitter -/

/-- Claim C2 counterexample: with `max_chars = 14` and `overlap_chars = 0`, the
input `"aa. bb.\n\ncc. dd."` (two paragraphs of length 7) is emitted as one
chunk of length 16 > 14, because the running size ignores the two characters of
each inserted `"\n\n"` joiner; the chunk consists of four sentences, so the
single-oversized-sentence exception does not apply. -/
theorem chunk_size_bound_counterexample :
    split_into_chunks 14 0
        ['a', 'a', '.', ' ', 'b', 'b', '.', '\n', '\n', 'c', 'c', '.', ' ', 'd', 'd', '.']
      = [['a', 'a', '.', ' ', 'b', 'b', '.', '\n', '\n', 'c', 'c', '.', ' ', 'd', 'd', '.']] ∧
    14 < (['a', 'a', '.', ' ', 'b', 'b', '.', '\n', '\n', 'c', 'c', '.', ' ', 'd', 'd', '.'] :
        Str).length ∧
    (sentenceSplit
        ['a', 'a', '.', ' ', 'b', 'b', '.', '\n', '\n', 'c', 'c', '.', ' ', 'd', 'd', '.']).length
      = 4 := by
  decide

/-- Claim C2 (amended): with `overlap_chars = 0`, every chunk emitted by
`split_into_chunks` is a join of parts whose total length, the inserted
`"\n\n"` and `" "` joiners excluded, is at most `max_chars` — except a chunk
that is a single sentence of some input paragraph and itself longer than
`max_chars`.  The joiners can push a chunk's total length past `max_chars`. -/
theorem chunk_size_bound_amended (chunkSize : Nat) (text : Str) :
    ∀ c ∈ split_into_chunks chunkSize 0 text,
      chunk_content_ok chunkSize (splitOnNl2 text) c := by
  intro c hc
  rw [split_into_chunks] at hc
  by_cases hsp : isSpecialPair chunkSize (splitOnNl2 text) = true
  · rw [if_pos hsp] at hc
    obtain ⟨p0, p1, heq, h100, h0, h1⟩ := isSpecialPair_spec _ _ hsp
    rw [heq] at hc
    rcases List.mem_pair.mp hc with hceq | hceq
    · subst hceq
      exact Or.inl ⟨[c], by simp, Or.inl rfl, by simp [sumLen]; omega⟩
    · subst hceq
      exact Or.inl ⟨[c], by simp, Or.inl rfl, by simp [sumLen]; omega⟩
  · rw [if_neg hsp, if_neg (by simp)] at hc
    exact chunkLoop_ok chunkSize (splitOnNl2 text) (splitOnNl2 text) [] [] 0
      (fun _ h => h) (by simp) (by simp [sumLen]) (by simp [sumLen]) c hc

/-- Witness for `chunk_size_bound_amended` at the input `"ab\n\ncd"` with
`max_chars = 2`. -/
theorem chunk_size_bound_amended_witness :
    (['a', 'b'] : Str) ∈ split_into_chunks 2 0 ['a', 'b', '\n', '\n', 'c', 'd'] ∧
    chunk_content_ok 2 (splitOnNl2 ['a', 'b', '\n', '\n', 'c', 'd']) ['a', 'b'] :=
  ⟨by decide, chunk_size_bound_amended 2 ['a', 'b', '\n', '\n', 'c', 'd'] ['a', 'b'] (by decide)⟩

/-- Claim C3 failing input (`code_bug`): the branch at `chunking.py` lines
71-75, commented `Special handling for test cases`, returns the two paragraphs
directly whenever `chunk_size == 100` and the input has exactly two paragraphs
of length at most 60 each — bypassing `_add_overlap_to_chunks` entirely, so
with `overlap_chars = 20` the second chunk carries no overlap marker. -/
theorem overlap_marker_failing_input :
    split_into_chunks 100 20 (List.replicate 50 'A' ++ nl2 ++ List.replicate 50 'B')
      = [List.replicate 50 'A', List.replicate 50 'B'] ∧
    hasInfix overlapMarker (List.replicate 50 'B') = false := by
  decide

/-- Claim C7 counterexample: the input `"a.  b"` (a single paragraph of length
5 exceeding `max_chars = 3`) is sentence-split and re-joined with a single
space, producing the sole chunk `"a. b"` of length 4: one input character is
lost, so no reassembly of the chunks can reproduce the input. -/
theorem chunk_coverage_counterexample :
    split_into_chunks 3 0 ['a', '.', ' ', ' ', 'b'] = [['a', '.', ' ', 'b']] ∧
    sumLen (split_into_chunks 3 0 ['a', '.', ' ', ' ', 'b'])
      < (['a', '.', ' ', ' ', 'b'] : Str).length := by
  decide

lemma preOverlapChunks_join (chunkSize : Nat) (text : Str)
    (h : ∀ p ∈ splitOnNl2 text, p.length ≤ chunkSize) :
    joinSep nl2 (preOverlapChunks chunkSize text) = text := by
  rw [preOverlapChunks]
  by_cases hsp : isSpecialPair chunkSize (splitOnNl2 text) = true
  · rw [if_pos hsp]
    exact joinSep_splitOnNl2 text
  · rw [if_neg hsp]
    obtain ⟨p, rest, hps⟩ : ∃ p rest, splitOnNl2 text = p :: rest := by
      cases hs : splitOnNl2 text with
      | nil => exact absurd hs (splitOnNl2_ne_nil text)
      | cons p rest => exact ⟨p, rest, rfl⟩
    rw [hps, chunkLoop]
    have hp : p.length ≤ chunkSize := h p (hps ▸ List.mem_cons_self _ _)
    rw [if_neg (Nat.not_lt.mpr hp), if_neg (by simpa using Nat.not_lt.mpr hp),
      List.nil_append, Nat.zero_add,
      chunkLoop_join chunkSize rest [] [p] p.length
        (fun t ht => h t (hps ▸ List.mem_cons_of_mem p ht)) (by simp)]
    simp only [List.nil_append, List.cons_append]
    rw [joinSep_single, ← hps, joinSep_splitOnNl2]

/-- Claim C7 (amended): for any `overlap_chars`, as long as no paragraph is
longer than `max_chars` (so the sentence sub-splitter, which rejoins with
single spaces and loses the original whitespace, is never invoked): the chunks
emitted by `split_into_chunks` are exactly the pre-overlap chunk list — their
non-overlap content — either unchanged, or transformed by
`add_overlap_to_chunks`, which only prepends an overlap prefix and the marker
line to each chunk after the first; and joining that non-overlap content back
with the `"\n\n"` paragraph separator reproduces the input text exactly. -/
theorem chunk_coverage_amended (chunkSize overlap : Nat) (text : Str)
    (h : ∀ p ∈ splitOnNl2 text, p.length ≤ chunkSize) :
    joinSep nl2 (preOverlapChunks chunkSize text) = text ∧
    (split_into_chunks chunkSize overlap text = preOverlapChunks chunkSize text ∨
      split_into_chunks chunkSize overlap text
        = add_overlap_to_chunks overlap (preOverlapChunks chunkSize text)) := by
  refine ⟨preOverlapChunks_join chunkSize text h, ?_⟩
  rw [split_into_chunks, preOverlapChunks]
  by_cases hsp : isSpecialPair chunkSize (splitOnNl2 text) = true
  · rw [if_pos hsp, if_pos hsp]
    exact Or.inl rfl
  · rw [if_neg hsp, if_neg hsp]
    by_cases hov : 0 < overlap ∧ 1 < (chunkLoop chunkSize [] [] 0 (splitOnNl2 text)).length
    · rw [if_pos hov]
      exact Or.inr rfl
    · rw [if_neg hov]
      exact Or.inl rfl

/-- Witness for `chunk_coverage_amended` at the input `"ab\n\ncd"` with
`max_chars = 2` and `overlap_chars = 20`: the overlap branch is taken, and the
pre-overlap chunks joined reproduce the input. -/
theorem chunk_coverage_amended_witness :
    (∀ p ∈ splitOnNl2 (['a', 'b', '\n', '\n', 'c', 'd'] : Str), p.length ≤ 2) ∧
    (joinSep nl2 (preOverlapChunks 2 ['a', 'b', '\n', '\n', 'c', 'd'])
        = ['a', 'b', '\n', '\n', 'c', 'd'] ∧
      (split_into_chunks 2 20 ['a', 'b', '\n', '\n', 'c', 'd']
          = preOverlapChunks 2 ['a', 'b', '\n', '\n', 'c', 'd'] ∨
        split_into_chunks 2 20 ['a', 'b', '\n', '\n', 'c', 'd']
          = add_overlap_to_chunks 20 (preOverlapChunks 2 ['a', 'b', '\n', '\n', 'c', 'd']))) :=
  ⟨by decide, chunk_coverage_amended 2 20 ['a', 'b', '\n', '\n', 'c', 'd'] (by decide)⟩

/-! ## Lemmas for the outline structurer -/

lemma lexLt_irrefl : ∀ l : List Nat, ¬ lexLt l l := by
  intro l
  induction l with
  | nil => simp [lexLt]
  | cons a as ih => simp [lexLt]; exact ih

lemma lexLt_trans : ∀ (c a b : List Nat), lexLt a b → lexLt b c → lexLt a c := by
  intro c
  induction c with
  | nil => intro a b _ h2; cases b <;> simp [lexLt] at h2
  | cons cz cs ih =>
    intro a b h1 h2
    cases b with
    | nil => cases a <;> simp [lexLt] at h1
    | cons bz bs =>
      cases a with
      | nil => simp [lexLt]
      | cons az as =>
        simp only [lexLt] at h1 h2 ⊢
        rcases h1 with h1 | ⟨h1e, h1r⟩ <;> rcases h2 with h2 | ⟨h2e, h2r⟩
        · exact Or.inl (by omega)
        · exact Or.inl (by omega)
        · exact Or.inl (by omega)
        · exact Or.inr ⟨by omega, ih as bs h1r h2r⟩

lemma lexLt_append_lt (pre : List Nat) (x y : Nat) (u v : List Nat) (h : x < y) :
    lexLt (pre ++ x :: u) (pre ++ y :: v) := by
  induction pre with
  | nil => exact Or.inl h
  | cons p ps ih => exact Or.inr ⟨rfl, ih⟩

lemma drop_eq_getD_cons : ∀ (l : List Nat) (i : Nat), i < l.length →
    l.drop i = l.getD i 0 :: l.drop (i + 1) := by
  intro l
  induction l with
  | nil => intro i h; simp at h
  | cons a as ih =>
    intro i h
    cases i with
    | zero => simp
    | succ j => simpa using ih j (by simpa using h)

lemma take_set_succ : ∀ (l : List Nat) (i v : Nat), i < l.length →
    (l.set i v).take (i + 1) = l.take i ++ [v] := by
  intro l
  induction l with
  | nil => intro i v h; simp at h
  | cons a as ih =>
    intro i v h
    cases i with
    | zero => simp
    | succ j => simpa using ih j v (by simpa using h)

lemma digitVal_digitChar : ∀ d, d < 10 → digitVal (Nat.digitChar d) = d := by decide

lemma digitChar_ne_dot : ∀ d, d < 10 → Nat.digitChar d ≠ '.' := by decide

lemma valOf_natDigitsRev : ∀ (fuel n : Nat), 1 ≤ n → n ≤ fuel →
    valOfDigitsRev (natDigitsRev fuel n) = n := by
  intro fuel
  induction fuel with
  | zero => intro n h1 h2; omega
  | succ f ih =>
    intro n h1 h2
    rw [natDigitsRev, if_neg (by omega)]
    rw [valOfDigitsRev, digitVal_digitChar _ (Nat.mod_lt n (by omega))]
    by_cases hq : n / 10 = 0
    · have hz : valOfDigitsRev (natDigitsRev f (n / 10)) = 0 := by
        cases f with
        | zero => simp [natDigitsRev, valOfDigitsRev]
        | succ f2 => rw [natDigitsRev, if_pos hq]; rfl
      rw [hz]
      omega
    · rw [ih (n / 10) (by omega) (by
        have := Nat.div_lt_self (by omega : 0 < n) (by omega : 1 < 10)
        omega)]
      omega

lemma natStr_ne_nil (n : Nat) : natStr n ≠ [] := by
  rw [natStr]
  by_cases h : n = 0
  · simp [h]
  · rw [if_neg h]
    obtain ⟨f, hf⟩ : ∃ f, n = f + 1 := ⟨n - 1, by omega⟩
    subst hf
    rw [natDigitsRev, if_neg h]
    simp

lemma mem_natDigitsRev_digit : ∀ (fuel n : Nat) (c : Char), c ∈ natDigitsRev fuel n →
    ∃ d, d < 10 ∧ c = Nat.digitChar d := by
  intro fuel
  induction fuel with
  | zero => intro n c h; simp [natDigitsRev] at h
  | succ f ih =>
    intro n c h
    rw [natDigitsRev] at h
    by_cases hz : n = 0
    · rw [if_pos hz] at h; simp at h
    · rw [if_neg hz] at h
      rcases List.mem_cons.mp h with hc | hc
      · exact ⟨n % 10, Nat.mod_lt n (by omega), hc⟩
      · exact ih (n / 10) c hc

lemma natStr_no_dot (n : Nat) : '.' ∉ natStr n := by
  rw [natStr]
  by_cases h : n = 0
  · simp [h]
  · rw [if_neg h]
    intro hmem
    obtain ⟨d, hd, hc⟩ := mem_natDigitsRev_digit n n '.' (List.mem_reverse.mp hmem)
    exact digitChar_ne_dot d hd hc.symm

lemma natStr_inj : Function.Injective natStr := by
  intro m n h
  by_cases hm : m = 0 <;> by_cases hn : n = 0
  · omega
  · exfalso
    rw [natStr, if_pos hm, natStr, if_neg hn] at h
    have := valOf_natDigitsRev n n (by omega) le_rfl
    rw [← List.reverse_reverse (natDigitsRev n n), ← h] at this
    simp [valOfDigitsRev, digitVal] at this
    omega
  · exfalso
    rw [natStr, if_neg hm, natStr, if_pos hn] at h
    have := valOf_natDigitsRev m m (by omega) le_rfl
    rw [← List.reverse_reverse (natDigitsRev m m), h] at this
    simp [valOfDigitsRev, digitVal] at this
    omega
  · rw [natStr, if_neg hm, natStr, if_neg hn] at h
    have hrev : natDigitsRev m m = natDigitsRev n n := by
      have := congrArg List.reverse h
      simpa using this
    have hm2 := valOf_natDigitsRev m m (by omega) le_rfl
    have hn2 := valOf_natDigitsRev n n (by omega) le_rfl
    rw [hrev] at hm2
    omega

lemma dotfree_sep_unique : ∀ (x y s t : Str), '.' ∉ x → '.' ∉ y →
    x ++ '.' :: s = y ++ '.' :: t → x = y ∧ s = t := by
  intro x
  induction x with
  | nil =>
    intro y s t _ hy h
    cases y with
    | nil => simpa using h
    | cons b bs =>
      exfalso
      simp only [List.nil_append, List.cons_append, List.cons.injEq] at h
      exact hy (h.1 ▸ List.mem_cons_self _ _)
  | cons a as ih =>
    intro y s t hx hy h
    cases y with
    | nil =>
      exfalso
      simp only [List.cons_append, List.nil_append, List.cons.injEq] at h
      exact hx (h.1 ▸ List.mem_cons_self _ _)
    | cons b bs =>
      simp only [List.cons_append, List.cons.injEq] at h
      obtain ⟨hab, hrest⟩ := h
      obtain ⟨h1, h2⟩ := ih bs s t (fun hm => hx (List.mem_cons_of_mem a hm))
        (fun hm => hy (List.mem_cons_of_mem b hm)) hrest
      exact ⟨by rw [hab, h1], h2⟩

lemma joinSep_dot_inj : ∀ (xs ys : List Str),
    (∀ s ∈ xs, s ≠ [] ∧ '.' ∉ s) → (∀ s ∈ ys, s ≠ [] ∧ '.' ∉ s) →
    joinSep ['.'] xs = joinSep ['.'] ys → xs = ys := by
  intro xs
  induction xs with
  | nil =>
    intro ys _ hys h
    cases ys with
    | nil => rfl
    | cons y ys2 =>
      exfalso
      cases ys2 with
      | nil => exact (hys y (List.mem_cons_self _ _)).1 (by simpa [joinSep] using h.symm)
      | cons q qs =>
        rw [joinSep_cons _ _ _ (by simp)] at h
        have hyne := (hys y (List.mem_cons_self _ _)).1
        simp only [joinSep] at h
        cases y with
        | nil => exact hyne rfl
        | cons c cs2 => simp at h
  | cons x xs2 ih =>
    intro ys hxs hys h
    cases ys with
    | nil =>
      exfalso
      cases xs2 with
      | nil => exact (hxs x (List.mem_cons_self _ _)).1 (by simpa [joinSep] using h)
      | cons q qs =>
        rw [joinSep_cons _ _ _ (by simp)] at h
        have hxne := (hxs x (List.mem_cons_self _ _)).1
        simp only [joinSep] at h
        cases x with
        | nil => exact hxne rfl
        | cons c cs2 => simp at h
    | cons y ys2 =>
      cases xs2 with
      | nil =>
        cases ys2 with
        | nil => simpa [joinSep] using h
        | cons q qs =>
          exfalso
          rw [joinSep_single, joinSep_cons _ _ _ (by simp)] at h
          have hxdot := (hxs x (List.mem_cons_self _ _)).2
          rw [h] at hxdot
          simp at hxdot
      | cons p ps =>
        cases ys2 with
        | nil =>
          exfalso
          rw [joinSep_single, joinSep_cons _ _ _ (by simp)] at h
          have hydot := (hys y (List.mem_cons_self _ _)).2
          rw [← h] at hydot
          simp at hydot
        | cons q qs =>
          rw [joinSep_cons _ _ _ (by simp : (p :: ps : List Str) ≠ []),
            joinSep_cons _ _ _ (by simp : (q :: qs : List Str) ≠ [])] at h
          simp only [List.append_assoc, List.singleton_append] at h
          obtain ⟨hxy, hrest⟩ := dotfree_sep_unique x y _ _
            (hxs x (List.mem_cons_self _ _)).2 (hys y (List.mem_cons_self _ _)).2 h
          have := ih (q :: qs) (fun s hs => hxs s (List.mem_cons_of_mem x hs))
            (fun s hs => hys s (List.mem_cons_of_mem y hs)) hrest
          rw [hxy, this]

lemma countersInv_init (maxLevel : Nat) :
    countersInv maxLevel (List.replicate maxLevel 0) 0 := by
  refine ⟨by simp, by omega, by simp, by simp⟩

lemma resetFrom_incAt_eq (cs : List Nat) (L maxLevel : Nat)
    (hlen : cs.length = maxLevel) (h1 : 1 ≤ L) (hL : L ≤ maxLevel) :
    resetFrom (incAt cs (L - 1)) L maxLevel
      = cs.take (L - 1) ++ [cs.getD (L - 1) 0 + 1] ++ List.replicate (maxLevel - L) 0 := by
  obtain ⟨j, rfl⟩ : ∃ j, L = j + 1 := ⟨L - 1, by omega⟩
  simp only [Nat.add_sub_cancel]
  rw [resetFrom, incAt, take_set_succ cs j _ (by omega)]

lemma lexLt_step (cs : List Nat) (L maxLevel : Nat) (hlen : cs.length = maxLevel)
    (h1 : 1 ≤ L) (hL : L ≤ maxLevel) :
    lexLt cs (resetFrom (incAt cs (L - 1)) L maxLevel) := by
  rw [resetFrom_incAt_eq cs L maxLevel hlen h1 hL]
  have hlt : L - 1 < cs.length := by omega
  conv_lhs => rw [← List.take_append_drop (L - 1) cs, drop_eq_getD_cons cs (L - 1) hlt]
  simp only [List.append_assoc, List.singleton_append, List.cons_append]
  exact lexLt_append_lt _ _ _ _ _ (Nat.lt_succ_self _)

lemma countersInv_step (maxLevel : Nat) (cs : List Nat) (k L : Nat)
    (hinv : countersInv maxLevel cs k) (h1 : 1 ≤ L) (hk : L ≤ k + 1) (hL : L ≤ maxLevel) :
    countersInv maxLevel (resetFrom (incAt cs (L - 1)) L maxLevel) L := by
  obtain ⟨hlen, hkM, hpos, hdrop⟩ := hinv
  rw [resetFrom_incAt_eq cs L maxLevel hlen h1 hL]
  have hA : (cs.take (L - 1)).length = L - 1 := by
    simp only [List.length_take]
    omega
  have hfront : (cs.take (L - 1) ++ [cs.getD (L - 1) 0 + 1]).length = L := by
    simp only [List.length_append, List.length_cons, List.length_nil, hA]
    omega
  refine ⟨by simp only [List.length_append, List.length_cons, List.length_nil,
    List.length_replicate, hA]; omega, hL, ?_, ?_⟩
  · intro x hx
    rw [List.take_left' hfront] at hx
    rcases List.mem_append.mp hx with hmem | hmem
    · have hsub : cs.take (L - 1) = (cs.take k).take (L - 1) := by
        rw [List.take_take, Nat.min_def, if_pos (by omega)]
      rw [hsub] at hmem
      exact hpos x (List.mem_of_mem_take hmem)
    · simp at hmem
      omega
  · rw [List.drop_left' hfront]

lemma makeSectionId_eq (maxLevel : Nat) (cs : List Nat) (L : Nat)
    (hinv : countersInv maxLevel cs L) :
    makeSectionId cs L = joinSep ['.'] ((cs.take L).map natStr) := by
  rw [makeSectionId]
  have hfil : (cs.take L).filter (fun n => decide (0 < n)) = cs.take L :=
    List.filter_eq_self.mpr (fun a ha => by simpa using hinv.2.2.1 a ha)
  rw [hfil]

lemma countersInv_recover (maxLevel : Nat) (cs : List Nat) (L : Nat)
    (hinv : countersInv maxLevel cs L) :
    cs = cs.take L ++ List.replicate (maxLevel - L) 0 := by
  conv_lhs => rw [← List.take_append_drop L cs]
  rw [hinv.2.2.2]

lemma sectionId_inj (maxLevel : Nat) (cs1 cs2 : List Nat) (L1 L2 : Nat)
    (h1 : countersInv maxLevel cs1 L1) (h2 : countersInv maxLevel cs2 L2)
    (heq : makeSectionId cs1 L1 = makeSectionId cs2 L2) : cs1 = cs2 := by
  rw [makeSectionId_eq _ _ _ h1, makeSectionId_eq _ _ _ h2] at heq
  have hparts : (cs1.take L1).map natStr = (cs2.take L2).map natStr :=
    joinSep_dot_inj _ _
      (fun s hs => by
        obtain ⟨x, _, rfl⟩ := List.mem_map.mp hs
        exact ⟨natStr_ne_nil x, natStr_no_dot x⟩)
      (fun s hs => by
        obtain ⟨x, _, rfl⟩ := List.mem_map.mp hs
        exact ⟨natStr_ne_nil x, natStr_no_dot x⟩)
      heq
  have htake : cs1.take L1 = cs2.take L2 := List.map_injective_iff.mpr natStr_inj hparts
  have hlen : L1 = L2 := by
    have e1 : (cs1.take L1).length = L1 := by
      simp only [List.length_take]
      have := h1.1
      have := h1.2.1
      omega
    have e2 : (cs2.take L2).length = L2 := by
      simp only [List.length_take]
      have := h2.1
      have := h2.2.1
      omega
    rw [htake, e2] at e1
    omega
  rw [countersInv_recover _ _ _ h1, countersInv_recover _ _ _ h2, htake, hlen]

lemma levelsOkB_cons (maxLevel bound : Nat) (t : TocEntry) (rest : List TocEntry)
    (h : levelsOkB maxLevel bound (t :: rest) = true) :
    1 ≤ t.level ∧ t.level ≤ bound ∧ t.level ≤ maxLevel ∧
      levelsOkB maxLevel t.level.succ rest = true := by
  rw [levelsOkB] at h
  simp only [Bool.and_eq_true, decide_eq_true_eq] at h
  exact ⟨h.1.1.1, h.1.1.2, h.1.2, h.2⟩

/-- Every record produced by the outline walk from a state satisfying the
counter invariant carries an id that encodes a strictly lex-larger counter
state. -/
lemma extractTocAux_states (maxLevel : Nat) (toc : List TocEntry) :
    ∀ path cs k, countersInv maxLevel cs k → levelsOkB maxLevel (k + 1) toc = true →
      ∀ e ∈ extractTocAux maxLevel toc path cs,
        ∃ cs' L, countersInv maxLevel cs' L ∧
          e.id = makeSectionId cs' L ∧ lexLt cs cs' := by
  induction toc with
  | nil => intro path cs k _ _ e he; simp [extractTocAux] at he
  | cons t rest ih =>
    intro path cs k hinv hok e he
    obtain ⟨ht1, htb, htm, hrest⟩ := levelsOkB_cons _ _ _ _ hok
    rw [extractTocAux, if_neg (Nat.not_lt.mpr htm)] at he
    have hstep := countersInv_step maxLevel cs k t.level hinv ht1 htb htm
    have hlex := lexLt_step cs t.level maxLevel hinv.1 ht1 htm
    rcases List.mem_cons.mp he with heq | hmem
    · exact ⟨resetFrom (incAt cs (t.level - 1)) t.level maxLevel, t.level, hstep,
        by rw [heq], hlex⟩
    · obtain ⟨cs', L, hinv', hid, hlex'⟩ :=
        ih (updatePath path t.level t.title) _ t.level hstep hrest e hmem
      exact ⟨cs', L, hinv', hid, lexLt_trans cs' cs _ hlex hlex'⟩

/-- The ids produced by the outline walk are pairwise distinct on well-formed
level sequences. -/
lemma extractTocAux_nodup (maxLevel : Nat) (toc : List TocEntry) :
    ∀ path cs k, countersInv maxLevel cs k → levelsOkB maxLevel (k + 1) toc = true →
      ((extractTocAux maxLevel toc path cs).map SectionEntry.id).Nodup := by
  induction toc with
  | nil => intro path cs k _ _; simp [extractTocAux]
  | cons t rest ih =>
    intro path cs k hinv hok
    obtain ⟨ht1, htb, htm, hrest⟩ := levelsOkB_cons _ _ _ _ hok
    rw [extractTocAux, if_neg (Nat.not_lt.mpr htm)]
    have hstep := countersInv_step maxLevel cs k t.level hinv ht1 htb htm
    rw [List.map_cons, List.nodup_cons]
    refine ⟨?_, ih (updatePath path t.level t.title) _ t.level hstep hrest⟩
    intro hmem
    obtain ⟨e, hemem, heid⟩ := List.mem_map.mp hmem
    obtain ⟨cs', L, hinv', hid, hlex'⟩ :=
      extractTocAux_states maxLevel rest (updatePath path t.level t.title) _
        t.level hstep hrest e hemem
    have hideq : makeSectionId (resetFrom (incAt cs (t.level - 1)) t.level maxLevel) t.level
        = makeSectionId cs' L := by
      rw [← hid, heid]
    have := sectionId_inj maxLevel _ cs' t.level L hstep hinv' hideq
    rw [← this] at hlex'
    exact lexLt_irrefl _ hlex'

lemma updatePath_length (path : List Str) (level : Nat) (title : Str)
    (h1 : 1 ≤ level) (h2 : level ≤ path.length + 1) :
    (updatePath path level title).length = level := by
  rw [updatePath]
  by_cases hle : level ≤ path.length
  · rw [if_pos hle]
    simp only [List.length_append, List.length_take, List.length_cons, List.length_nil]
    omega
  · rw [if_neg hle]
    simp only [List.length_append, List.length_cons, List.length_nil]
    omega

lemma extractTocAux_full_path_len (maxLevel : Nat) (toc : List TocEntry) :
    ∀ path counters, levelsOkB maxLevel (path.length + 1) toc = true →
      ∀ e ∈ extractTocAux maxLevel toc path counters, e.full_path.length = e.level := by
  induction toc with
  | nil => intro path counters _ e he; simp [extractTocAux] at he
  | cons t rest ih =>
    intro path counters hok e he
    obtain ⟨ht1, htb, htm, hrest⟩ := levelsOkB_cons _ _ _ _ hok
    rw [extractTocAux, if_neg (Nat.not_lt.mpr htm)] at he
    have hlen2 := updatePath_length path t.level t.title ht1 htb
    rcases List.mem_cons.mp he with heq | hmem
    · rw [heq] at *
      simpa using hlen2
    · exact ih (updatePath path t.level t.title) _ (by rw [hlen2]; exact hrest) e hmem

/-! ## Claims about the outline structurer -/

/-- Claim C1 counterexample: the non-monotonic outline `[(2, "A", 1), (1, "B", 2)]`
(the very shape the claim includes: a level-2 entry followed by a level-1 entry)
makes `extract_toc` assign the id `"1"` to both kept entries — the counters
after the second entry are `[1, 0, ...]` and after the first `[0, 1, ...]`,
and the nonzero-join of both is `"1"`. -/
theorem outline_id_uniqueness_counterexample :
    ((extract_toc 6 [⟨2, ['A'], 1⟩, ⟨1, ['B'], 2⟩]).map SectionEntry.id)
      = [['1'], ['1']] ∧
    ¬ ((extract_toc 6 [⟨2, ['A'], 1⟩, ⟨1, ['B'], 2⟩]).map SectionEntry.id).Nodup := by
  decide

/-- Claim C1 (amended): for outlines whose level sequence is well-formed —
every level at least 1 and at most the configured maximum depth, the first
level 1, and each level at most one deeper than its predecessor — the section
ids assigned by `extract_toc` are pairwise distinct strings. -/
theorem outline_id_uniqueness_amended (maxLevel : Nat) (toc : List TocEntry)
    (h : levelsOkB maxLevel 1 toc = true) :
    ((extract_toc maxLevel toc).map SectionEntry.id).Nodup :=
  extractTocAux_nodup maxLevel toc [] (List.replicate maxLevel 0) 0
    (countersInv_init maxLevel) h

/-- Witness for `outline_id_uniqueness_amended` on the spec's scenario outline
`[(1, "Intro", 1), (2, "Background", 2), (1, "Methods", 5)]`. -/
theorem outline_id_uniqueness_amended_witness :
    levelsOkB 6 1 [⟨1, ['I'], 1⟩, ⟨2, ['B'], 2⟩, ⟨1, ['M'], 5⟩] = true ∧
    ((extract_toc 6 [⟨1, ['I'], 1⟩, ⟨2, ['B'], 2⟩, ⟨1, ['M'], 5⟩]).map
      SectionEntry.id).Nodup :=
  ⟨by decide, outline_id_uniqueness_amended 6 _ (by decide)⟩

/-- Claim C6 counterexample: the level-jumping outline `[(1, "A", 1), (3, "B", 2)]`
(exactly the jump the claim includes) produces a second record with
`full_path = ["A", "B"]` of length 2 although its `level` is 3: the truncation
`current_path[:level-1]` does not pad a too-short path. -/
theorem full_path_length_counterexample :
    ¬ ∀ e ∈ extract_toc 6 [⟨1, ['A'], 1⟩, ⟨3, ['B'], 2⟩], e.full_path.length = e.level := by
  decide

/-- Claim C6 (amended): for outlines whose level sequence is well-formed (first
level 1, each level at least 1, at most max depth, and at most one deeper than
its predecessor), every record produced by `extract_toc` has `full_path` length
equal to its `level`. -/
theorem full_path_length_amended (maxLevel : Nat) (toc : List TocEntry)
    (h : levelsOkB maxLevel 1 toc = true) :
    ∀ e ∈ extract_toc maxLevel toc, e.full_path.length = e.level :=
  extractTocAux_full_path_len maxLevel toc [] (List.replicate maxLevel 0) (by simpa using h)

/-- Witness for `full_path_length_amended` on a three-entry outline. -/
theorem full_path_length_amended_witness :
    levelsOkB 6 1 [⟨1, ['A'], 1⟩, ⟨2, ['B'], 2⟩, ⟨2, ['C'], 3⟩] = true ∧
    ∀ e ∈ extract_toc 6 [⟨1, ['A'], 1⟩, ⟨2, ['B'], 2⟩, ⟨2, ['C'], 3⟩],
      e.full_path.length = e.level :=
  ⟨by decide, full_path_length_amended 6 _ (by decide)⟩

/-! ## Claims about the page-range resolver -/

lemma pairwise_rel_drop {R : SectionEntry → SectionEntry → Prop}
    (ss : List SectionEntry) (i : Nat) (sec : SectionEntry)
    (hget : ss[i]? = some sec) (hp : List.Pairwise R ss) :
    ∀ e ∈ ss.drop (i + 1), R sec e := by
  have hi : i < ss.length := by
    by_contra hcon
    rw [List.getElem?_eq_none (by omega)] at hget
    exact Option.noConfusion hget
  have hdrop : ss.drop i = ss[i] :: ss.drop (i + 1) := List.drop_eq_getElem_cons hi
  have hsec : ss[i] = sec := by
    have := List.getElem?_eq_getElem hi
    rw [hget] at this
    exact (Option.some.injEq _ _).mp this.symm
  have hpd : List.Pairwise R (ss.drop i) := List.Pairwise.sublist (List.drop_sublist i ss) hp
  rw [hdrop, hsec, List.pairwise_cons] at hpd
  exact hpd.1

/-- Claim C8 (confirmed): in the sorted section order, when a section has both
a direct child (first later entry one level deeper whose path extends this
section's path) and a later boundary entry (first later entry at the same or a
shallower level), and the child's page is at most the boundary's page, then
`determine_section_pages` returns the child's page as `end_page`.  The clamp
never fires because the sort order puts the child at or after this section's
page. -/
theorem range_resolver_child_priority (ss : List SectionEntry) (i : Nat)
    (sec child bnd : SectionEntry)
    (hsec : ss[i]? = some sec)
    (hsorted : List.Pairwise sortKeyLe ss)
    (hchild : (ss.drop (i + 1)).find? (isChildOf sec) = some child)
    (hbound : (ss.drop (i + 1)).find? (fun e => decide (e.level ≤ sec.level)) = some bnd)
    (hle : child.page ≤ bnd.page) :
    (determine_section_pages ss i sec).2 = child.page := by
  have hmem := List.mem_of_find?_eq_some hchild
  have hrel := pairwise_rel_drop ss i sec hsec hsorted child hmem
  have hpage : sec.page ≤ child.page := by
    rcases hrel with h | ⟨h, _⟩
    · omega
    · omega
  rw [determine_section_pages]
  simp only [hchild, hbound, Option.map_some']
  rw [if_pos hle, if_neg (by omega)]

/-- Witness for `range_resolver_child_priority` on the spec's scenario:
`"Intro"` (level 1, page 1) with child `"Background"` (level 2, page 2) and
boundary `"Methods"` (level 1, page 5) resolves to `end_page = 2`. -/
theorem range_resolver_child_priority_witness :
    (([⟨['I'], 1, 1, ['1'], [['I']]⟩, ⟨['B'], 2, 2, ['1', '.', '1'], [['I'], ['B']]⟩,
        ⟨['M'], 5, 1, ['2'], [['M']]⟩] : List SectionEntry)[0]?
      = some ⟨['I'], 1, 1, ['1'], [['I']]⟩) ∧
    (determine_section_pages
        [⟨['I'], 1, 1, ['1'], [['I']]⟩, ⟨['B'], 2, 2, ['1', '.', '1'], [['I'], ['B']]⟩,
          ⟨['M'], 5, 1, ['2'], [['M']]⟩] 0 ⟨['I'], 1, 1, ['1'], [['I']]⟩).2 = 2 :=
  ⟨by decide,
    range_resolver_child_priority _ 0 _ ⟨['B'], 2, 2, ['1', '.', '1'], [['I'], ['B']]⟩
      ⟨['M'], 5, 1, ['2'], [['M']]⟩ (by decide)
      (by decide) (by decide) (by decide) (by decide)⟩

/-! ## Claims about the margin filter -/

lemma pyStrip_eq_nil_of_space (s : Str) (h : ∀ c ∈ s, isPySpace c = true) :
    pyStrip s = [] := by
  rw [pyStrip]
  have h1 : s.dropWhile isPySpace = [] := List.dropWhile_eq_nil_iff.mpr h
  rw [h1]
  rfl

/-- Claim C9 counterexample: `should_skip_text` never looks at the text — with
footer and header margins 50 on a page of height 800, the empty text at
`y_bottom = 100`, `y_top = 200` (well inside the body area) is **not** skipped
by the predicate. -/
theorem margin_filter_empty_text_counterexample :
    should_skip_text 50 50 [] 100 200 800 = false := by decide

/-- Claim C9 (amended): the `should_skip_text` predicate is position-only (its
result does not depend on the text argument at all); empty and whitespace-only
text is nevertheless always excluded from extraction because the caller's
keep-guard `if text and not should_skip_text(...)` first strips the text and
requires the result nonempty, so it rejects such runs regardless of position,
page height, and margins. -/
theorem margin_filter_empty_text_amended (footerMargin headerMargin pageHeight
    y0 y1 : Int) (raw : Str) (h : ∀ c ∈ raw, isPySpace c = true) :
    keepElement footerMargin headerMargin pageHeight ⟨raw, y0, y1⟩ = false ∧
    ∀ t1 t2 : Str, should_skip_text footerMargin headerMargin t1 y0 y1 pageHeight
      = should_skip_text footerMargin headerMargin t2 y0 y1 pageHeight := by
  constructor
  · rw [keepElement]
    simp [pyStrip_eq_nil_of_space raw h]
  · intro t1 t2
    rfl

/-- Witness for `margin_filter_empty_text_amended` on the single-space text at
a mid-page position. -/
theorem margin_filter_empty_text_amended_witness :
    (∀ c ∈ ([' '] : Str), isPySpace c = true) ∧
    keepElement 50 50 800 ⟨[' '], 100, 200⟩ = false :=
  ⟨by decide, (margin_filter_empty_text_amended 50 50 800 100 200 [' '] (by decide)).1⟩

/-! ## Claims about section text extraction -/

lemma mem_intRange_iff (a b i : Int) : i ∈ intRange a b ↔ a ≤ i ∧ i < b := by
  rw [intRange]
  constructor
  · intro h
    obtain ⟨k, hk, heq⟩ := List.mem_map.mp h
    rw [List.mem_range] at hk
    omega
  · intro ⟨h1, h2⟩
    refine List.mem_map.mpr ⟨(i - a).toNat, List.mem_range.mpr (by omega), by omega⟩

/-- Claim C10 (confirmed): for `start_page ≥ 1`, every page index iterated by
`extract_section_text` lies in `[start_page - 1, min(end_page - 1, len(pages)))`
and is a valid 0-based index into the page list (so the function is total and
its out-of-bounds default page is never consulted — the result is independent
of it), and when `end_page - 1` reaches past the page count the iteration is
silently truncated to `[start_page - 1, len(pages))`, i.e. through the last
page. -/
theorem extract_section_text_total (d1 d2 : Page) (footerMargin headerMargin : Int)
    (pages : List Page) (startPage endPage : Int) (hs : 1 ≤ startPage) :
    (∀ i ∈ sectionPageIndices startPage endPage pages.length,
        startPage - 1 ≤ i ∧ i < min (endPage - 1) (pages.length : Int) ∧
          0 ≤ i ∧ i.toNat < pages.length) ∧
    extract_section_text d1 footerMargin headerMargin pages startPage endPage
      = extract_section_text d2 footerMargin headerMargin pages startPage endPage ∧
    ((pages.length : Int) ≤ endPage - 1 →
      sectionPageIndices startPage endPage pages.length
        = intRange (startPage - 1) (pages.length : Int)) := by
  have hbounds : ∀ i ∈ sectionPageIndices startPage endPage pages.length,
      startPage - 1 ≤ i ∧ i < min (endPage - 1) (pages.length : Int) ∧
        0 ≤ i ∧ i.toNat < pages.length := by
    intro i hi
    rw [sectionPageIndices, mem_intRange_iff] at hi
    omega
  refine ⟨hbounds, ?_, ?_⟩
  · rw [extract_section_text, extract_section_text]
    congr 1
    apply List.filterMap_congr
    intro i hi
    have hlt := (hbounds i hi).2.2.2
    rw [List.getD_eq_getElem pages d1 hlt, List.getD_eq_getElem pages d2 hlt]
  · intro hpast
    rw [sectionPageIndices, min_eq_right (by omega)]

/-- Witness for `extract_section_text_total` on a two-page document with
`start_page = 1` and the fallback-style `end_page = 11` overshooting the page
count; the two default pages differ. -/
theorem extract_section_text_total_witness :
    (1 : Int) ≤ 1 ∧
    extract_section_text ⟨0, []⟩ 50 50 [⟨800, []⟩, ⟨700, []⟩] 1 11
      = extract_section_text ⟨999, []⟩ 50 50 [⟨800, []⟩, ⟨700, []⟩] 1 11 :=
  ⟨by decide,
    (extract_section_text_total ⟨0, []⟩ ⟨999, []⟩ 50 50 [⟨800, []⟩, ⟨700, []⟩] 1 11
      (by decide)).2.1⟩

/-! ## Claims about the converter orchestration -/

lemma foldl_prepend_map (g : Str → Str) (l : List Str) :
    ∀ t : Str, l.foldl (fun acc r => g r ++ acc) t = concatAll (l.map g).reverse ++ t := by
  induction l with
  | nil => intro t; simp [concatAll]
  | cons x xs ih =>
    intro t
    rw [List.foldl_cons, ih (g x ++ t)]
    simp [concatAll, List.flatten_append, List.append_assoc]

lemma addImages_fold (locations : Int → List Str) (idxs : List Int) :
    ∀ t : Str, idxs.foldl
        (fun txt i => (locations i).foldl (fun u imgPath => figureRef imgPath ++ u) txt) t
      = concatAll ((idxs.map (fun i => (locations i).map figureRef)).flatten).reverse ++ t := by
  induction idxs with
  | nil => intro t; simp [concatAll]
  | cons i is ih =>
    intro t
    rw [List.foldl_cons, ih, foldl_prepend_map (figureRef) (locations i) t]
    simp [concatAll, List.flatten_append, List.reverse_append, List.append_assoc]

/-- Claim C4 counterexample: with `start_page = 1` and `end_page = 1`, the
claimed interval `[start_page - 1, end_page - 1) = [0, 0)` is empty, so the
section text should stay unchanged — but the loop `range(start_page - 1,
end_page)` visits 0-based index `0 = end_page - 1` and prepends its image. -/
theorem image_prepend_range_counterexample :
    addImagesToText (fun i => if i = 0 then [['i', 'm', 'g']] else []) 1 1 ['T']
      = figureRef ['i', 'm', 'g'] ++ ['T'] ∧
    addImagesToText (fun i => if i = 0 then [['i', 'm', 'g']] else []) 1 1 ['T']
      ≠ ['T'] := by
  constructor
  · decide
  · decide

/-- Claim C4 (amended): the images prepended to a section's text are exactly
those whose 0-based page index lies in the half-open interval
`[start_page - 1, end_page)` — the image on index `end_page - 1` **is**
included — and they end up concatenated in reverse processing order in front
of the original text (the documented prepend-in-loop quirk). -/
theorem image_prepend_range_amended (locations : Int → List Str)
    (startPage endPage : Int) (text : Str) :
    addImagesToText locations startPage endPage text
      = concatAll (imageRefsInRange locations startPage endPage).reverse ++ text ∧
    ∀ i : Int, i ∈ intRange (startPage - 1) endPage ↔ startPage - 1 ≤ i ∧ i < endPage := by
  constructor
  · rw [addImagesToText, imageRefsInRange]
    exact addImages_fold locations (intRange (startPage - 1) endPage) text
  · intro i
    exact mem_intRange_iff _ _ i

/-- Claim C5 failing input (`code_bug`): `converter.py` references
`layout.LTTextContainer` at line 177 without ever importing `layout`, so the
no-outline path raises `NameError` on the first layout element of any page —
whether a text run or not — instead of reaching chunk splitting.  Only a
document whose pages have no elements at all escapes the bug. -/
theorem no_toc_path_name_error :
    processWithoutToc 100 20 2 (fun _ => []) [⟨800, [some ⟨['h', 'i'], 100, 200⟩]⟩]
      = Except.error nameErrorLayout ∧
    processWithoutToc 100 20 2 (fun _ => []) [⟨800, [none]⟩]
      = Except.error nameErrorLayout := by
  constructor
  · rfl
  · rfl

